import Mathlib

/-!
Verification of the Sinkhorn transport-cost routine of the
`paper_summaries` repository (`generative_models_w_Sinkhorn_div.ipynb`).

The source function is

```
def sinkhorn_loss(X, Y, epsilon=.5, L=10):
    X_new = tf.expand_dims(X, 1)
    Y_new = tf.expand_dims(Y, 0)
    diff = X_new - Y_new
    c = tf.reduce_sum(diff**2, reduction_indices=-1)
    K = tf.exp(-c/epsilon)
    a = tf.ones((tf.shape(Y)[0], 1))
    b = tf.ones((tf.shape(Y)[0], 1))
    for l in range(L):
        a = 1./(tf.matmul(K, b) + 1e-12)
        b = 1./(tf.matmul(tf.transpose(K), a) + 1e-12)
    return tf.matmul(tf.transpose(tf.matmul(tf.mul(K, c), b)), a)
```

together with the composite objective

```
loss = tf.reduce_sum(2.*sinkhorn_loss(X, generator_out)
                     - sinkhorn_loss(X, X)
                     - sinkhorn_loss(generator_out, generator_out))
```

The embedding models tensors as lists of lists of real numbers.  Every
`tf.matmul` checks that the contracted dimensions agree, exactly as the
framework does at run time, so a shape mismatch surfaces as `none`
(the framework's shape error).  Floating-point rounding is not modelled:
arithmetic is over `ℝ`, with the numeric literal `1e-12` kept exact.
`tf.reduce_sum` applied to the final 1×1 matrix is the identity on the
scalar, so the result is modelled as that scalar directly.
-/

namespace PaperSummaries

/-- The floor constant `1e-12` added to each denominator in the source. -/
noncomputable def floorConst : ℝ := 1e-12

/-- Source `tf.reduce_sum(diff**2, reduction_indices=-1)` for one pair of points:
squared Euclidean distance of two coordinate lists. -/
noncomputable def sqdist (x y : List ℝ) : ℝ :=
  ((x.zip y).map (fun p => (p.1 - p.2) ^ 2)).sum

/-- The pairwise cost matrix `c`: `c[i][j] = ‖X[i] - Y[j]‖²`, built by
broadcasting `X` against `Y` (source lines building `diff` and `c`). -/
noncomputable def costMatrix (X Y : List (List ℝ)) : List (List ℝ) :=
  X.map (fun xi => Y.map (fun yj => sqdist xi yj))

/-- The affinity kernel `K = tf.exp(-c/epsilon)`, elementwise. -/
noncomputable def kernelMatrix (ε : ℝ) (c : List (List ℝ)) : List (List ℝ) :=
  c.map (List.map (fun cij => Real.exp (-cij / ε)))

/-- Dot product of two coordinate lists (no length check). -/
noncomputable def dot (x y : List ℝ) : ℝ :=
  ((x.zip y).map (fun p => p.1 * p.2)).sum

/-- Dot product with the shape check `tf.matmul` performs: `none` is the
framework's shape error. -/
noncomputable def dotChecked (x y : List ℝ) : Option ℝ :=
  if x.length = y.length then some (dot x y) else none

/-- Source `tf.matmul(M, v)` for a matrix against a column vector, row by row,
failing like the framework does when a row length disagrees with `v`. -/
noncomputable def matVec : List (List ℝ) → List ℝ → Option (List ℝ)
  | [], _ => some []
  | r :: M, v => do
    let x ← dotChecked r v
    let xs ← matVec M v
    pure (x :: xs)

/-- Source `tf.transpose` of an `m×n` matrix, with the column count `n` made
explicit (every matrix reaching it in this routine is rectangular). -/
noncomputable def transposeM (n : Nat) (M : List (List ℝ)) : List (List ℝ) :=
  (List.range n).map (fun j => M.map (fun row => row.getD j 0))

/-- Elementwise product `tf.mul(K, c)` of two matrices. -/
noncomputable def hadamard (K c : List (List ℝ)) : List (List ℝ) :=
  List.zipWith (fun kr cr => List.zipWith (· * ·) kr cr) K c

/-- One round of the fixed-point loop:
`a = 1./(tf.matmul(K, b) + 1e-12)` then
`b = 1./(tf.matmul(tf.transpose(K), a) + 1e-12)`.
`Kt` is the transpose of `K`; the incoming `a` component is never read. -/
noncomputable def sinkhornStep (K Kt : List (List ℝ)) (ab : List ℝ × List ℝ) :
    Option (List ℝ × List ℝ) := do
  let s ← matVec K ab.2
  let a := s.map (fun x => 1 / (x + floorConst))
  let t ← matVec Kt a
  let b := t.map (fun x => 1 / (x + floorConst))
  pure (a, b)

/-- Source loop `for l in range(L)`: iterate a fallible step `L` times. -/
def iterOpt {α : Type} (f : α → Option α) : Nat → α → Option α
  | 0, s => some s
  | k + 1, s => (f s).bind (iterOpt f k)

/-- Source `a = tf.ones((tf.shape(Y)[0], 1))`: the first scaling vector is sized
by the SECOND point set. -/
noncomputable def a_init (Y : List (List ℝ)) : List ℝ :=
  List.replicate Y.length 1

/-- Source `b = tf.ones((tf.shape(Y)[0], 1))`. -/
noncomputable def b_init (Y : List (List ℝ)) : List ℝ :=
  List.replicate Y.length 1

/-- The scaling vectors after `L` rounds of the loop. -/
noncomputable def sinkhornUV (X Y : List (List ℝ)) (ε : ℝ) (L : Nat) :
    Option (List ℝ × List ℝ) :=
  let K := kernelMatrix ε (costMatrix X Y)
  iterOpt (sinkhornStep K (transposeM Y.length K)) L (a_init Y, b_init Y)

/-- The transport-cost routine `sinkhorn_loss(X, Y, epsilon, L)`:
build `c` and `K`, run the loop, and contract
`tf.matmul(tf.transpose(tf.matmul(tf.mul(K, c), b)), a)`. -/
noncomputable def sinkhorn_loss (X Y : List (List ℝ)) (ε : ℝ) (L : Nat) :
    Option ℝ := do
  let c := costMatrix X Y
  let K := kernelMatrix ε c
  let ab ← sinkhornUV X Y ε L
  let w ← matVec (hadamard K c) ab.2
  dotChecked w ab.1

/-- The function `sinkhorn_loss` with its default arguments `epsilon=.5, L=10`. -/
noncomputable def sinkhorn_loss_default (X Y : List (List ℝ)) : Option ℝ :=
  sinkhorn_loss X Y 0.5 10

/-- The composite training objective
`2*S(X, G) - S(X, X) - S(G, G)` built from default-argument calls. -/
noncomputable def loss (X G : List (List ℝ)) : Option ℝ := do
  let s1 ← sinkhorn_loss_default X G
  let s2 ← sinkhorn_loss_default X X
  let s3 ← sinkhorn_loss_default G G
  pure (2 * s1 - s2 - s3)

/-- Variant of the loop with an arbitrary initial first scaling vector,
used to state that the initial `a` is dead for `L ≥ 1`. -/
noncomputable def sinkhornUV_with (a0 : List ℝ) (X Y : List (List ℝ))
    (ε : ℝ) (L : Nat) : Option (List ℝ × List ℝ) :=
  let K := kernelMatrix ε (costMatrix X Y)
  iterOpt (sinkhornStep K (transposeM Y.length K)) L (a0, b_init Y)

/-- The function `sinkhorn_loss` computed from `sinkhornUV_with`. -/
noncomputable def sinkhorn_loss_with (a0 : List ℝ) (X Y : List (List ℝ))
    (ε : ℝ) (L : Nat) : Option ℝ := do
  let c := costMatrix X Y
  let K := kernelMatrix ε c
  let ab ← sinkhornUV_with a0 X Y ε L
  let w ← matVec (hadamard K c) ab.2
  dotChecked w ab.1

/-- Instrumented loop that also counts the number of rounds executed. -/
def iterCount {α : Type} (f : α → Option α) : Nat → α → Option (α × Nat)
  | 0, s => some (s, 0)
  | k + 1, s => (f s).bind (fun s1 =>
      (iterCount f k s1).bind (fun p => some (p.1, p.2 + 1)))

/-- Matrix entry read off a list-of-lists, defaulting to `0`. -/
noncomputable def entry (M : List (List ℝ)) (i j : Nat) : ℝ :=
  (M.getD i []).getD j 0

/-- The claimed cost matrix, written from the specification:
`C[i][j] = ∑ k, (A[i][k] - B[j][k])²` for points of dimension `d`. -/
noncomputable def specC (A B : Nat → Nat → ℝ) (d i j : Nat) : ℝ :=
  ∑ k ∈ Finset.range d, (A i k - B j k) ^ 2

/-- The claimed kernel, written from the specification:
`K[i][j] = exp(-C[i][j]/epsilon)`. -/
noncomputable def specK (ε : ℝ) (C : Nat → Nat → ℝ) (i j : Nat) : ℝ :=
  Real.exp (-C i j / ε)

/-- The claimed scaling recursion, written from the specification: start
from all-ones `u` (length m) and `v` (length n); each round updates `u`
first from the current `v`, then `v` from the new `u`, with the `1e-12`
floor in each denominator. -/
noncomputable def specUV (K : Nat → Nat → ℝ) (m n : Nat) :
    Nat → (Nat → ℝ) × (Nat → ℝ)
  | 0 => (fun _ => 1, fun _ => 1)
  | L + 1 =>
    let v := (specUV K m n L).2
    let u := fun i => 1 / ((∑ j ∈ Finset.range n, K i j * v j) + floorConst)
    (u, fun j => 1 / ((∑ i ∈ Finset.range m, K i j * u i) + floorConst))

/-! ### List-level bridging lemmas -/

theorem dot_nil_left (y : List ℝ) : dot [] y = 0 := rfl

theorem dot_cons_cons (a b : ℝ) (x y : List ℝ) :
    dot (a :: x) (b :: y) = a * b + dot x y := by
  simp [dot]

theorem dot_eq_sum (x y : List ℝ) (h : x.length = y.length) :
    dot x y = ∑ i ∈ Finset.range x.length, x.getD i 0 * y.getD i 0 := by
  induction x generalizing y with
  | nil => simp [dot]
  | cons a t ih =>
    cases y with
    | nil => simp at h
    | cons b s =>
      have hts : t.length = s.length := by simpa using h
      rw [dot_cons_cons, ih s hts]
      rw [List.length_cons, Finset.sum_range_succ' (fun i => (a :: t).getD i 0 * (b :: s).getD i 0)]
      simp [add_comm]

theorem dot_nonneg (x y : List ℝ) (hx : ∀ a ∈ x, 0 ≤ a) (hy : ∀ b ∈ y, 0 ≤ b) :
    0 ≤ dot x y := by
  induction x generalizing y with
  | nil => simp [dot]
  | cons a t ih =>
    cases y with
    | nil => simp [dot]
    | cons b s =>
      rw [dot_cons_cons]
      have ha : 0 ≤ a := hx a (by simp)
      have hb : 0 ≤ b := hy b (by simp)
      have ht : 0 ≤ dot t s :=
        ih s (fun c hc => hx c (List.mem_cons_of_mem _ hc))
          (fun c hc => hy c (List.mem_cons_of_mem _ hc))
      nlinarith

theorem sqdist_eq_sum (x y : List ℝ) (d : Nat) (hx : x.length = d)
    (hy : y.length = d) :
    sqdist x y = ∑ k ∈ Finset.range d, (x.getD k 0 - y.getD k 0) ^ 2 := by
  induction x generalizing y d with
  | nil =>
    have hd : d = 0 := by simpa using hx.symm
    subst hd
    simp [sqdist]
  | cons a t ih =>
    cases y with
    | nil => rw [← hx] at hy; simp at hy
    | cons b s =>
      cases d with
      | zero => simp at hx
      | succ e =>
        have hts : t.length = e := by simpa using hx
        have hss : s.length = e := by simpa using hy
        have hcons : sqdist (a :: t) (b :: s) = (a - b) ^ 2 + sqdist t s := by
          simp [sqdist]
        rw [hcons, ih s e hts hss,
          Finset.sum_range_succ' (fun k => ((a :: t).getD k 0 - (b :: s).getD k 0) ^ 2)]
        simp [add_comm]

theorem sqdist_nonneg (x y : List ℝ) : 0 ≤ sqdist x y := by
  refine List.sum_nonneg ?_
  intro a ha
  simp only [List.mem_map] at ha
  obtain ⟨p, _, rfl⟩ := ha
  positivity

theorem matVec_eq (M : List (List ℝ)) (v : List ℝ)
    (h : ∀ r ∈ M, r.length = v.length) :
    matVec M v = some (M.map (fun r => dot r v)) := by
  induction M with
  | nil => rfl
  | cons r t ih =>
    have hr : r.length = v.length := h r (by simp)
    have ht : matVec t v = some (t.map (fun r => dot r v)) :=
      ih (fun s hs => h s (by simp [hs]))
    simp [matVec, dotChecked, hr, ht]

theorem getD_map_outer {F : List ℝ → List ℝ → ℝ} (X Y : List (List ℝ))
    (i j : Nat) (hi : i < X.length) (hj : j < Y.length) :
    ((X.map (fun xi => Y.map (fun yj => F xi yj))).getD i []).getD j 0 =
      F (X.getD i []) (Y.getD j []) := by
  have h1 : (X.map (fun xi => Y.map (fun yj => F xi yj))).getD i [] =
      Y.map (fun yj => F (X.getD i []) yj) := by
    rw [List.getD_eq_getElem _ _ (by simpa using hi), List.getElem_map,
      List.getD_eq_getElem _ _ hi]
  rw [h1, List.getD_eq_getElem _ _ (by simpa using hj), List.getElem_map,
    List.getD_eq_getElem _ _ hj]

theorem getD_map_gen {α β : Type} (l : List α) (f : α → β) (d : α) (d' : β)
    (i : Nat) (hi : i < l.length) : (l.map f).getD i d' = f (l.getD i d) := by
  rw [List.getD_eq_getElem _ _ (by simpa using hi), List.getElem_map,
    List.getD_eq_getElem _ _ hi]

theorem getD_mem (M : List (List ℝ)) (i : Nat) (hi : i < M.length) :
    M.getD i [] ∈ M := by
  rw [List.getD_eq_getElem _ _ hi]
  exact List.getElem_mem _

theorem getD_replicate_one (n j : Nat) (hj : j < n) :
    (List.replicate n (1 : ℝ)).getD j 0 = 1 := by
  rw [List.getD_eq_getElem _ _ (by simpa using hj)]
  simp

theorem zipWith_map_map {α β : Type} (f : β → β → β) (g h : α → β)
    (l : List α) :
    List.zipWith f (l.map g) (l.map h) = l.map (fun x => f (g x) (h x)) := by
  induction l with
  | nil => rfl
  | cons a t ih => simp [ih]

theorem kernel_cost_outer (X Y : List (List ℝ)) (ε : ℝ) :
    kernelMatrix ε (costMatrix X Y) =
      X.map (fun xi => Y.map (fun yj => Real.exp (-sqdist xi yj / ε))) := by
  simp [kernelMatrix, costMatrix, List.map_map]

theorem hadamard_outer (X Y : List (List ℝ)) (ε : ℝ) :
    hadamard (kernelMatrix ε (costMatrix X Y)) (costMatrix X Y) =
      X.map (fun xi =>
        Y.map (fun yj => Real.exp (-sqdist xi yj / ε) * sqdist xi yj)) := by
  rw [hadamard, kernel_cost_outer, costMatrix, zipWith_map_map]
  refine List.map_congr_left ?_
  intro xi _
  exact zipWith_map_map _ _ _ Y

theorem length_transposeM (n : Nat) (M : List (List ℝ)) :
    (transposeM n M).length = n := by
  simp [transposeM]

theorem mem_transposeM_length (n : Nat) (M : List (List ℝ)) (r : List ℝ)
    (hr : r ∈ transposeM n M) : r.length = M.length := by
  simp only [transposeM, List.mem_map] at hr
  obtain ⟨j, _, rfl⟩ := hr
  simp

theorem getD_transposeM (n : Nat) (M : List (List ℝ)) (j : Nat) (hj : j < n) :
    (transposeM n M).getD j [] = M.map (fun row => row.getD j 0) := by
  rw [transposeM, List.getD_eq_getElem _ _ (by simpa using hj),
    List.getElem_map, List.getElem_range]

/-! ### One round of the loop, described entrywise -/

theorem sinkhornStep_spec (K : List (List ℝ)) (m n : Nat)
    (hK : K.length = m) (hKr : ∀ r ∈ K, r.length = n)
    (a b : List ℝ) (hb : b.length = n) :
    ∃ a' b', sinkhornStep K (transposeM n K) (a, b) = some (a', b') ∧
      a'.length = m ∧ b'.length = n ∧
      (∀ i, i < m → a'.getD i 0 =
        1 / ((∑ j ∈ Finset.range n, entry K i j * b.getD j 0) + floorConst)) ∧
      (∀ j, j < n → b'.getD j 0 =
        1 / ((∑ i ∈ Finset.range m, entry K i j * a'.getD i 0) + floorConst)) := by
  have hKb : matVec K b = some (K.map (fun r => dot r b)) :=
    matVec_eq _ _ (fun r hr => (hKr r hr).trans hb.symm)
  set a' : List ℝ := (K.map (fun r => dot r b)).map (fun x => 1 / (x + floorConst)) with ha'
  have ha'len : a'.length = m := by simp [ha', hK]
  have ha'entry : ∀ i, i < m → a'.getD i 0 =
      1 / ((∑ j ∈ Finset.range n, entry K i j * b.getD j 0) + floorConst) := by
    intro i hi
    have hi' : i < (K.map (fun r => dot r b)).length := by simpa [hK] using hi
    rw [ha', getD_map_gen _ _ 0 _ _ hi',
      getD_map_gen _ _ [] _ _ (by simpa [hK] using hi)]
    have hrow : (K.getD i []).length = n :=
      hKr _ (getD_mem K i (by simpa [hK] using hi))
    rw [dot_eq_sum _ _ (hrow.trans hb.symm), hrow]
    rfl
  have hKta : matVec (transposeM n K) a' =
      some ((transposeM n K).map (fun r => dot r a')) :=
    matVec_eq _ _ (fun r hr => by
      rw [mem_transposeM_length n K r hr, hK, ha'len])
  set b' : List ℝ :=
    ((transposeM n K).map (fun r => dot r a')).map (fun x => 1 / (x + floorConst)) with hb'
  have hb'len : b'.length = n := by simp [hb', length_transposeM]
  refine ⟨a', b', ?_, ha'len, hb'len, ha'entry, ?_⟩
  · simp only [sinkhornStep, Option.pure_def, Option.bind_eq_bind]
    rw [hKb]
    simp only [Option.some_bind]
    rw [← ha', hKta]
    simp only [Option.some_bind]
  · intro j hj
    have hj' : j < ((transposeM n K).map (fun r => dot r a')).length := by
      simpa [length_transposeM] using hj
    rw [hb', getD_map_gen _ _ 0 _ _ hj',
      getD_map_gen _ _ [] _ _ (by simpa [length_transposeM] using hj),
      getD_transposeM n K j hj]
    have hlen : (K.map (fun row => row.getD j 0)).length = a'.length := by
      simp [hK, ha'len]
    rw [dot_eq_sum _ _ hlen]
    have hlen2 : (K.map (fun row => row.getD j 0)).length = m := by simp [hK]
    rw [hlen2]
    congr 2
    refine Finset.sum_congr rfl ?_
    intro i hi
    have him : i < m := Finset.mem_range.mp hi
    rw [getD_map_gen _ _ [] _ _ (by simpa [hK] using him)]
    rfl

theorem specUV_succ_fst (K : Nat → Nat → ℝ) (m n L : Nat) (i : Nat) :
    (specUV K m n (L + 1)).1 i =
      1 / ((∑ j ∈ Finset.range n, K i j * (specUV K m n L).2 j) + floorConst) :=
  rfl

theorem specUV_succ_snd (K : Nat → Nat → ℝ) (m n L : Nat) (j : Nat) :
    (specUV K m n (L + 1)).2 j =
      1 / ((∑ i ∈ Finset.range m, K i j * (specUV K m n (L + 1)).1 i) + floorConst) :=
  rfl

theorem specUV_congr (K K' : Nat → Nat → ℝ) (m n : Nat)
    (h : ∀ i, i < m → ∀ j, j < n → K i j = K' i j) :
    ∀ L, (∀ i, i < m → (specUV K m n L).1 i = (specUV K' m n L).1 i) ∧
      (∀ j, j < n → (specUV K m n L).2 j = (specUV K' m n L).2 j) := by
  intro L
  induction L with
  | zero => exact ⟨fun _ _ => rfl, fun _ _ => rfl⟩
  | succ s ih =>
    have hfst : ∀ i, i < m →
        (specUV K m n (s + 1)).1 i = (specUV K' m n (s + 1)).1 i := by
      intro i hi
      rw [specUV_succ_fst, specUV_succ_fst]
      congr 2
      refine Finset.sum_congr rfl ?_
      intro j hj
      rw [h i hi j (Finset.mem_range.mp hj), (ih.2 j (Finset.mem_range.mp hj))]
    refine ⟨hfst, ?_⟩
    intro j hj
    rw [specUV_succ_snd, specUV_succ_snd]
    congr 2
    refine Finset.sum_congr rfl ?_
    intro i hi
    rw [h i (Finset.mem_range.mp hi) j hj, hfst i (Finset.mem_range.mp hi)]

theorem kernel_length (X Y : List (List ℝ)) (ε : ℝ) :
    (kernelMatrix ε (costMatrix X Y)).length = X.length := by
  rw [kernel_cost_outer]
  simp

theorem kernel_row_length (X Y : List (List ℝ)) (ε : ℝ) :
    ∀ r ∈ kernelMatrix ε (costMatrix X Y), r.length = Y.length := by
  rw [kernel_cost_outer]
  intro r hr
  simp only [List.mem_map] at hr
  obtain ⟨xi, _, rfl⟩ := hr
  simp

/-! ### The loop matches the claimed scaling recursion -/

theorem iter_corr (K : List (List ℝ)) (m n : Nat)
    (hK : K.length = m) (hKr : ∀ r ∈ K, r.length = n) :
    ∀ t k (a b : List ℝ), b.length = n →
      (∀ j, j < n → b.getD j 0 = (specUV (entry K) m n k).2 j) →
      ∃ A B, iterOpt (sinkhornStep K (transposeM n K)) t (a, b) = some (A, B) ∧
        B.length = n ∧
        (∀ j, j < n → B.getD j 0 = (specUV (entry K) m n (k + t)).2 j) ∧
        (1 ≤ t → A.length = m ∧
          ∀ i, i < m → A.getD i 0 = (specUV (entry K) m n (k + t)).1 i) := by
  intro t
  induction t with
  | zero =>
    intro k a b hb hbv
    exact ⟨a, b, rfl, hb, by simpa using hbv, by omega⟩
  | succ s ih =>
    intro k a b hb hbv
    obtain ⟨a', b', hstep, ha'len, hb'len, ha'e, hb'e⟩ :=
      sinkhornStep_spec K m n hK hKr a b hb
    have hu : ∀ i, i < m → a'.getD i 0 = (specUV (entry K) m n (k + 1)).1 i := by
      intro i hi
      rw [ha'e i hi, specUV_succ_fst]
      congr 2
      refine Finset.sum_congr rfl ?_
      intro j hj
      rw [hbv j (Finset.mem_range.mp hj)]
    have hv : ∀ j, j < n → b'.getD j 0 = (specUV (entry K) m n (k + 1)).2 j := by
      intro j hj
      rw [hb'e j hj, specUV_succ_snd]
      congr 2
      refine Finset.sum_congr rfl ?_
      intro i hi
      rw [hu i (Finset.mem_range.mp hi)]
    obtain ⟨A, B, hiter, hBlen, hBe, hA⟩ := ih (k + 1) a' b' hb'len hv
    have harith : k + 1 + s = k + (s + 1) := by omega
    refine ⟨A, B, ?_, hBlen, ?_, ?_⟩
    · simp only [iterOpt]
      rw [hstep, Option.some_bind]
      exact hiter
    · intro j hj
      rw [← harith]
      exact hBe j hj
    · intro _
      cases s with
      | zero =>
        have hAB : A = a' ∧ B = b' := by
          simp only [iterOpt] at hiter
          exact ⟨congrArg Prod.fst (Option.some_injective _ hiter).symm,
            congrArg Prod.snd (Option.some_injective _ hiter).symm⟩
        refine ⟨hAB.1 ▸ ha'len, ?_⟩
        intro i hi
        rw [hAB.1]
        exact hu i hi
      | succ s' =>
        obtain ⟨hAlen, hAe⟩ := hA (by omega)
        refine ⟨hAlen, ?_⟩
        intro i hi
        rw [← harith]
        exact hAe i hi

/-- The scaling vectors computed by the routine after `L ≥ 1` rounds are
exactly the claimed recursion's `u` (length m) and `v` (length n). -/
theorem sinkhornUV_corr (X Y : List (List ℝ)) (ε : ℝ) (L : Nat) (hL : 1 ≤ L) :
    ∃ A B, sinkhornUV X Y ε L = some (A, B) ∧
      A.length = X.length ∧ B.length = Y.length ∧
      (∀ i, i < X.length → A.getD i 0 =
        (specUV (entry (kernelMatrix ε (costMatrix X Y))) X.length Y.length L).1 i) ∧
      (∀ j, j < Y.length → B.getD j 0 =
        (specUV (entry (kernelMatrix ε (costMatrix X Y))) X.length Y.length L).2 j) := by
  obtain ⟨A, B, hiter, hBlen, hBe, hA⟩ :=
    iter_corr (kernelMatrix ε (costMatrix X Y)) X.length Y.length
      (kernel_length X Y ε) (kernel_row_length X Y ε) L 0
      (a_init Y) (b_init Y) (by simp [b_init])
      (by
        intro j hj
        rw [b_init, getD_replicate_one _ _ hj]
        rfl)
  obtain ⟨hAlen, hAe⟩ := hA hL
  exact ⟨A, B, hiter, hAlen, hBlen, by simpa using hAe, by simpa using hBe⟩

theorem entry_cost_eq_specC (X Y : List (List ℝ)) (d : Nat)
    (hdX : ∀ r ∈ X, r.length = d) (hdY : ∀ r ∈ Y, r.length = d)
    (i j : Nat) (hi : i < X.length) (hj : j < Y.length) :
    entry (costMatrix X Y) i j = specC (entry X) (entry Y) d i j := by
  rw [entry, costMatrix, getD_map_outer X Y i j hi hj, specC,
    sqdist_eq_sum _ _ d (hdX _ (getD_mem X i hi)) (hdY _ (getD_mem Y j hj))]
  rfl

theorem entry_kernel_eq_specK (X Y : List (List ℝ)) (ε : ℝ) (d : Nat)
    (hdX : ∀ r ∈ X, r.length = d) (hdY : ∀ r ∈ Y, r.length = d)
    (i j : Nat) (hi : i < X.length) (hj : j < Y.length) :
    entry (kernelMatrix ε (costMatrix X Y)) i j =
      specK ε (specC (entry X) (entry Y) d) i j := by
  rw [entry, kernel_cost_outer, getD_map_outer X Y i j hi hj, specK]
  congr 1
  rw [sqdist_eq_sum _ _ d (hdX _ (getD_mem X i hi)) (hdY _ (getD_mem Y j hj))]
  rfl

theorem entry_hadamard (X Y : List (List ℝ)) (ε : ℝ) (i j : Nat)
    (hi : i < X.length) (hj : j < Y.length) :
    entry (hadamard (kernelMatrix ε (costMatrix X Y)) (costMatrix X Y)) i j =
      entry (kernelMatrix ε (costMatrix X Y)) i j * entry (costMatrix X Y) i j := by
  rw [entry, hadamard_outer, getD_map_outer X Y i j hi hj,
    entry, kernel_cost_outer, getD_map_outer X Y i j hi hj,
    entry, costMatrix, getD_map_outer X Y i j hi hj]

theorem hadamard_kc_length (X Y : List (List ℝ)) (ε : ℝ) :
    (hadamard (kernelMatrix ε (costMatrix X Y)) (costMatrix X Y)).length =
      X.length := by
  rw [hadamard_outer]
  simp

theorem hadamard_kc_row_length (X Y : List (List ℝ)) (ε : ℝ) :
    ∀ r ∈ hadamard (kernelMatrix ε (costMatrix X Y)) (costMatrix X Y),
      r.length = Y.length := by
  rw [hadamard_outer]
  intro r hr
  simp only [List.mem_map] at hr
  obtain ⟨xi, _, rfl⟩ := hr
  simp

/-- Closed form of the routine for `L ≥ 1` rounds: the returned scalar is
the double contraction of the claimed kernel, cost matrix and scaling
recursion. -/
theorem sinkhorn_loss_closed_form (X Y : List (List ℝ)) (ε : ℝ) (L d : Nat)
    (hL : 1 ≤ L)
    (hdX : ∀ r ∈ X, r.length = d) (hdY : ∀ r ∈ Y, r.length = d) :
    sinkhorn_loss X Y ε L =
      some (∑ i ∈ Finset.range X.length, ∑ j ∈ Finset.range Y.length,
        specK ε (specC (entry X) (entry Y) d) i j *
          specC (entry X) (entry Y) d i j *
          (specUV (specK ε (specC (entry X) (entry Y) d))
            X.length Y.length L).2 j *
          (specUV (specK ε (specC (entry X) (entry Y) d))
            X.length Y.length L).1 i) := by
  obtain ⟨A, B, hUV, hAlen, hBlen, hAe, hBe⟩ := sinkhornUV_corr X Y ε L hL
  have hcongr := specUV_congr (entry (kernelMatrix ε (costMatrix X Y)))
    (specK ε (specC (entry X) (entry Y) d)) X.length Y.length
    (fun i hi j hj => entry_kernel_eq_specK X Y ε d hdX hdY i j hi hj) L
  have hAe' : ∀ i, i < X.length → A.getD i 0 =
      (specUV (specK ε (specC (entry X) (entry Y) d)) X.length Y.length L).1 i :=
    fun i hi => (hAe i hi).trans (hcongr.1 i hi)
  have hBe' : ∀ j, j < Y.length → B.getD j 0 =
      (specUV (specK ε (specC (entry X) (entry Y) d)) X.length Y.length L).2 j :=
    fun j hj => (hBe j hj).trans (hcongr.2 j hj)
  have hKc : matVec (hadamard (kernelMatrix ε (costMatrix X Y)) (costMatrix X Y)) B =
      some ((hadamard (kernelMatrix ε (costMatrix X Y)) (costMatrix X Y)).map
        (fun r => dot r B)) :=
    matVec_eq _ _ (fun r hr => (hadamard_kc_row_length X Y ε r hr).trans hBlen.symm)
  have hwlen : ((hadamard (kernelMatrix ε (costMatrix X Y)) (costMatrix X Y)).map
      (fun r => dot r B)).length = X.length := by
    simp [hadamard_kc_length]
  have hfinal : dotChecked ((hadamard (kernelMatrix ε (costMatrix X Y))
      (costMatrix X Y)).map (fun r => dot r B)) A =
      some (dot ((hadamard (kernelMatrix ε (costMatrix X Y))
        (costMatrix X Y)).map (fun r => dot r B)) A) := by
    rw [dotChecked]
    simp [hwlen, hAlen]
  rw [sinkhorn_loss]
  simp only [Option.pure_def, Option.bind_eq_bind]
  rw [hUV, Option.some_bind, hKc, Option.some_bind, hfinal]
  congr 1
  rw [dot_eq_sum _ _ (by rw [hwlen, hAlen]), hwlen]
  refine Finset.sum_congr rfl ?_
  intro i hi
  have him : i < X.length := Finset.mem_range.mp hi
  rw [getD_map_gen _ _ [] _ _ (by simpa [hadamard_kc_length] using him)]
  have hrowlen : ((hadamard (kernelMatrix ε (costMatrix X Y))
      (costMatrix X Y)).getD i []).length = Y.length :=
    hadamard_kc_row_length X Y ε _
      (getD_mem _ i (by simpa [hadamard_kc_length] using him))
  rw [dot_eq_sum _ _ (hrowlen.trans hBlen.symm), hrowlen, Finset.sum_mul]
  refine Finset.sum_congr rfl ?_
  intro j hj
  have hjn : j < Y.length := Finset.mem_range.mp hj
  have hKCij : ((hadamard (kernelMatrix ε (costMatrix X Y))
      (costMatrix X Y)).getD i []).getD j 0 =
      specK ε (specC (entry X) (entry Y) d) i j *
        specC (entry X) (entry Y) d i j := by
    have h1 := entry_hadamard X Y ε i j him hjn
    rw [entry] at h1
    rw [h1, entry_kernel_eq_specK X Y ε d hdX hdY i j him hjn,
      entry_cost_eq_specC X Y d hdX hdY i j him hjn]
  rw [hKCij, hBe' j hjn, hAe' i him]

/-! ### Non-negativity machinery -/

theorem floorConst_pos : 0 < floorConst := by
  norm_num [floorConst]

theorem getD_nonneg (r : List ℝ) (j : Nat) (h : ∀ x ∈ r, 0 ≤ x) :
    0 ≤ r.getD j 0 := by
  by_cases hj : j < r.length
  · rw [List.getD_eq_getElem _ _ hj]
    exact h _ (List.getElem_mem _)
  · rw [List.getD_eq_getElem?_getD, List.getElem?_eq_none (by omega)]
    simp

theorem dotChecked_some (x y : List ℝ) (r : ℝ) (h : dotChecked x y = some r) :
    r = dot x y := by
  by_cases hl : x.length = y.length
  · simp [dotChecked, hl] at h
    exact h.symm
  · simp [dotChecked, hl] at h

theorem matVec_nonneg (M : List (List ℝ)) (v w : List ℝ)
    (hM : ∀ r ∈ M, ∀ x ∈ r, 0 ≤ x) (hv : ∀ x ∈ v, 0 ≤ x)
    (h : matVec M v = some w) : ∀ x ∈ w, 0 ≤ x := by
  induction M generalizing w with
  | nil =>
    simp only [matVec, Option.some.injEq] at h
    subst h
    simp
  | cons r M ih =>
    simp only [matVec, Option.pure_def, Option.bind_eq_bind] at h
    cases hdc : dotChecked r v with
    | none => rw [hdc] at h; simp at h
    | some x =>
      rw [hdc, Option.some_bind] at h
      cases hmv : matVec M v with
      | none => rw [hmv] at h; simp at h
      | some ws =>
        rw [hmv, Option.some_bind] at h
        simp only [Option.some.injEq] at h
        subst h
        intro y hy
        rcases List.mem_cons.mp hy with hy | hy
        · subst hy
          rw [dotChecked_some r v _ hdc]
          exact dot_nonneg r v (hM r (by simp)) hv
        · exact ih ws (fun s hs => hM s (List.mem_cons_of_mem _ hs)) hmv y hy

theorem kernel_entries_nonneg (X Y : List (List ℝ)) (ε : ℝ) :
    ∀ r ∈ kernelMatrix ε (costMatrix X Y), ∀ x ∈ r, 0 ≤ x := by
  rw [kernel_cost_outer]
  intro r hr x hx
  simp only [List.mem_map] at hr
  obtain ⟨xi, _, rfl⟩ := hr
  simp only [List.mem_map] at hx
  obtain ⟨yj, _, rfl⟩ := hx
  exact (Real.exp_pos _).le

theorem transposeM_entries_nonneg (n : Nat) (M : List (List ℝ))
    (hM : ∀ r ∈ M, ∀ x ∈ r, 0 ≤ x) :
    ∀ r ∈ transposeM n M, ∀ x ∈ r, 0 ≤ x := by
  intro r hr x hx
  simp only [transposeM, List.mem_map] at hr
  obtain ⟨j, _, rfl⟩ := hr
  simp only [List.mem_map] at hx
  obtain ⟨row, hrow, rfl⟩ := hx
  exact getD_nonneg _ _ (hM row hrow)

theorem hadamard_kc_entries_nonneg (X Y : List (List ℝ)) (ε : ℝ) :
    ∀ r ∈ hadamard (kernelMatrix ε (costMatrix X Y)) (costMatrix X Y),
      ∀ x ∈ r, 0 ≤ x := by
  rw [hadamard_outer]
  intro r hr x hx
  simp only [List.mem_map] at hr
  obtain ⟨xi, _, rfl⟩ := hr
  simp only [List.mem_map] at hx
  obtain ⟨yj, _, rfl⟩ := hx
  exact mul_nonneg (Real.exp_pos _).le (sqdist_nonneg _ _)

theorem sinkhornStep_inv (K Kt : List (List ℝ)) (a b a' b' : List ℝ)
    (h : sinkhornStep K Kt (a, b) = some (a', b')) :
    ∃ s t, matVec K b = some s ∧
      a' = s.map (fun x => 1 / (x + floorConst)) ∧
      matVec Kt a' = some t ∧
      b' = t.map (fun x => 1 / (x + floorConst)) := by
  simp only [sinkhornStep, Option.pure_def, Option.bind_eq_bind] at h
  cases hs : matVec K b with
  | none => rw [hs] at h; simp at h
  | some s =>
    rw [hs, Option.some_bind] at h
    cases ht : matVec Kt (s.map fun x => 1 / (x + floorConst)) with
    | none => rw [ht] at h; simp at h
    | some t =>
      rw [ht, Option.some_bind] at h
      simp only [Option.some.injEq, Prod.mk.injEq] at h
      obtain ⟨h1, h2⟩ := h
      refine ⟨s, t, rfl, h1.symm, ?_, h2.symm⟩
      rw [← h1]
      exact ht

theorem sinkhornStep_preserves_nonneg (K Kt : List (List ℝ)) (a b a' b' : List ℝ)
    (hK : ∀ r ∈ K, ∀ x ∈ r, 0 ≤ x) (hKt : ∀ r ∈ Kt, ∀ x ∈ r, 0 ≤ x)
    (hb : ∀ x ∈ b, 0 ≤ x)
    (h : sinkhornStep K Kt (a, b) = some (a', b')) :
    (∀ x ∈ a', 0 ≤ x) ∧ (∀ x ∈ b', 0 ≤ x) := by
  obtain ⟨s, t, hs, ha', ht, hb'⟩ := sinkhornStep_inv K Kt a b a' b' h
  have hsnn : ∀ x ∈ s, 0 ≤ x := matVec_nonneg K b s hK hb hs
  have ha'nn : ∀ x ∈ a', 0 ≤ x := by
    intro x hx
    rw [ha'] at hx
    simp only [List.mem_map] at hx
    obtain ⟨y, hy, rfl⟩ := hx
    have hypos : 0 < y + floorConst := by
      have := hsnn y hy
      have := floorConst_pos
      linarith
    positivity
  have htnn : ∀ x ∈ t, 0 ≤ x := matVec_nonneg Kt a' t hKt ha'nn ht
  refine ⟨ha'nn, ?_⟩
  intro x hx
  rw [hb'] at hx
  simp only [List.mem_map] at hx
  obtain ⟨y, hy, rfl⟩ := hx
  have hypos : 0 < y + floorConst := by
    have := htnn y hy
    have := floorConst_pos
    linarith
  positivity

theorem iterOpt_preserves_nonneg (K Kt : List (List ℝ))
    (hK : ∀ r ∈ K, ∀ x ∈ r, 0 ≤ x) (hKt : ∀ r ∈ Kt, ∀ x ∈ r, 0 ≤ x) :
    ∀ t (a b A B : List ℝ), (∀ x ∈ a, 0 ≤ x) → (∀ x ∈ b, 0 ≤ x) →
      iterOpt (sinkhornStep K Kt) t (a, b) = some (A, B) →
      (∀ x ∈ A, 0 ≤ x) ∧ (∀ x ∈ B, 0 ≤ x) := by
  intro t
  induction t with
  | zero =>
    intro a b A B ha hb h
    simp only [iterOpt, Option.some.injEq, Prod.mk.injEq] at h
    obtain ⟨h1, h2⟩ := h
    exact ⟨h1 ▸ ha, h2 ▸ hb⟩
  | succ s ih =>
    intro a b A B ha hb h
    simp only [iterOpt] at h
    cases hst : sinkhornStep K Kt (a, b) with
    | none => rw [hst] at h; simp at h
    | some ab' =>
      rw [hst, Option.some_bind] at h
      obtain ⟨a', b'⟩ := ab'
      obtain ⟨ha', hb'⟩ :=
        sinkhornStep_preserves_nonneg K Kt a b a' b' hK hKt hb hst
      exact ih a' b' A B ha' hb' h

/-- Whenever the routine returns a scalar, that scalar is non-negative. -/
theorem sinkhorn_loss_nonneg_aux (X Y : List (List ℝ)) (ε : ℝ) (L : Nat)
    (r : ℝ) (h : sinkhorn_loss X Y ε L = some r) : 0 ≤ r := by
  simp only [sinkhorn_loss, Option.pure_def, Option.bind_eq_bind] at h
  cases hUV : sinkhornUV X Y ε L with
  | none => rw [hUV] at h; simp at h
  | some ab =>
    rw [hUV, Option.some_bind] at h
    obtain ⟨A, B⟩ := ab
    have hUV' : iterOpt (sinkhornStep (kernelMatrix ε (costMatrix X Y))
        (transposeM Y.length (kernelMatrix ε (costMatrix X Y)))) L
        (a_init Y, b_init Y) = some (A, B) := hUV
    have hinit : ∀ x ∈ List.replicate Y.length (1 : ℝ), 0 ≤ x := by
      intro x hx
      rw [List.eq_of_mem_replicate hx]
      norm_num
    obtain ⟨hAnn, hBnn⟩ := iterOpt_preserves_nonneg _ _
      (kernel_entries_nonneg X Y ε)
      (transposeM_entries_nonneg _ _ (kernel_entries_nonneg X Y ε))
      L (a_init Y) (b_init Y) A B hinit hinit hUV'
    cases hw : matVec (hadamard (kernelMatrix ε (costMatrix X Y))
        (costMatrix X Y)) B with
    | none => rw [hw] at h; simp at h
    | some w =>
      rw [hw, Option.some_bind] at h
      have hwnn : ∀ x ∈ w, 0 ≤ x :=
        matVec_nonneg _ _ _ (hadamard_kc_entries_nonneg X Y ε) hBnn hw
      rw [dotChecked_some w A r h]
      exact dot_nonneg w A hwnn hAnn

/-! ### Behaviour at L = 0 and totality for L ≥ 1 -/

/-- With zero rounds the loop returns the initial scaling vectors. -/
theorem sinkhornUV_zero (X Y : List (List ℝ)) (ε : ℝ) :
    sinkhornUV X Y ε 0 =
      some (List.replicate Y.length 1, List.replicate Y.length 1) := rfl

/-- For square inputs and `L = 0` the routine returns the un-iterated
cost `∑ K[i][j] * C[i][j]` without any guard. -/
theorem sinkhorn_loss_zero_form (X Y : List (List ℝ)) (ε : ℝ) (d : Nat)
    (hmn : X.length = Y.length)
    (hdX : ∀ r ∈ X, r.length = d) (hdY : ∀ r ∈ Y, r.length = d) :
    sinkhorn_loss X Y ε 0 =
      some (∑ i ∈ Finset.range X.length, ∑ j ∈ Finset.range Y.length,
        specK ε (specC (entry X) (entry Y) d) i j *
          specC (entry X) (entry Y) d i j) := by
  have hKc : matVec (hadamard (kernelMatrix ε (costMatrix X Y)) (costMatrix X Y))
      (List.replicate Y.length 1) =
      some ((hadamard (kernelMatrix ε (costMatrix X Y)) (costMatrix X Y)).map
        (fun r => dot r (List.replicate Y.length 1))) :=
    matVec_eq _ _ (fun r hr => by
      rw [hadamard_kc_row_length X Y ε r hr, List.length_replicate])
  have hwlen : ((hadamard (kernelMatrix ε (costMatrix X Y)) (costMatrix X Y)).map
      (fun r => dot r (List.replicate Y.length 1))).length = X.length := by
    simp [hadamard_kc_length]
  have hfinal : dotChecked ((hadamard (kernelMatrix ε (costMatrix X Y))
      (costMatrix X Y)).map (fun r => dot r (List.replicate Y.length 1)))
      (List.replicate Y.length 1) =
      some (dot ((hadamard (kernelMatrix ε (costMatrix X Y))
        (costMatrix X Y)).map (fun r => dot r (List.replicate Y.length 1)))
        (List.replicate Y.length 1)) := by
    rw [dotChecked, if_pos]
    rw [hwlen, List.length_replicate]
    exact hmn
  rw [sinkhorn_loss]
  simp only [Option.pure_def, Option.bind_eq_bind]
  rw [sinkhornUV_zero, Option.some_bind, hKc, Option.some_bind, hfinal]
  congr 1
  rw [dot_eq_sum _ _ (by rw [hwlen, List.length_replicate]; exact hmn), hwlen]
  refine Finset.sum_congr rfl ?_
  intro i hi
  have him : i < X.length := Finset.mem_range.mp hi
  rw [getD_replicate_one _ _ (by omega : i < Y.length), mul_one]
  rw [getD_map_gen _ _ [] _ _ (by simpa [hadamard_kc_length] using him)]
  have hrowlen : ((hadamard (kernelMatrix ε (costMatrix X Y))
      (costMatrix X Y)).getD i []).length = Y.length :=
    hadamard_kc_row_length X Y ε _
      (getD_mem _ i (by simpa [hadamard_kc_length] using him))
  rw [dot_eq_sum _ _ (by rw [hrowlen, List.length_replicate]), hrowlen]
  refine Finset.sum_congr rfl ?_
  intro j hj
  have hjn : j < Y.length := Finset.mem_range.mp hj
  rw [getD_replicate_one _ _ hjn, mul_one]
  have h1 := entry_hadamard X Y ε i j him hjn
  rw [entry] at h1
  rw [h1, entry_kernel_eq_specK X Y ε d hdX hdY i j him hjn,
    entry_cost_eq_specC X Y d hdX hdY i j him hjn]

/-- For `L ≥ 1` rounds the routine always returns a scalar: no shape
mismatch (the framework's only failure mode here) can occur. -/
theorem sinkhorn_loss_total (X Y : List (List ℝ)) (ε : ℝ) (L : Nat)
    (hL : 1 ≤ L) : ∃ r, sinkhorn_loss X Y ε L = some r := by
  obtain ⟨A, B, hUV, hAlen, hBlen, _, _⟩ := sinkhornUV_corr X Y ε L hL
  have hKc : matVec (hadamard (kernelMatrix ε (costMatrix X Y)) (costMatrix X Y)) B =
      some ((hadamard (kernelMatrix ε (costMatrix X Y)) (costMatrix X Y)).map
        (fun r => dot r B)) :=
    matVec_eq _ _ (fun r hr => (hadamard_kc_row_length X Y ε r hr).trans hBlen.symm)
  refine ⟨dot ((hadamard (kernelMatrix ε (costMatrix X Y)) (costMatrix X Y)).map
    (fun r => dot r B)) A, ?_⟩
  rw [sinkhorn_loss]
  simp only [Option.pure_def, Option.bind_eq_bind]
  rw [hUV, Option.some_bind, hKc, Option.some_bind, dotChecked, if_pos]
  simp [hadamard_kc_length, hAlen]

/-- Counting version of the loop: a successful `L`-round run is counted
as exactly `L` executed rounds. -/
theorem iterCount_eq {α : Type} (f : α → Option α) :
    ∀ t (s s' : α), iterOpt f t s = some s' →
      iterCount f t s = some (s', t) := by
  intro t
  induction t with
  | zero =>
    intro s s' h
    simp only [iterOpt, Option.some.injEq] at h
    rw [iterCount, h]
  | succ k ih =>
    intro s s' h
    simp only [iterOpt] at h
    cases hf : f s with
    | none => rw [hf] at h; simp at h
    | some s1 =>
      rw [hf, Option.some_bind] at h
      rw [iterCount, hf, Option.some_bind, ih s1 s' h, Option.some_bind]

/-- One loop round never reads the incoming first scaling vector. -/
theorem sinkhornStep_ignores_fst (K Kt : List (List ℝ)) (a a' b : List ℝ) :
    sinkhornStep K Kt (a, b) = sinkhornStep K Kt (a', b) := rfl

/-- For `L ≥ 1` the loop's result is independent of the initial first
scaling vector. -/
theorem iterOpt_init_fst_irrelevant (K Kt : List (List ℝ)) (t : Nat)
    (ht : 1 ≤ t) (a a' b : List ℝ) :
    iterOpt (sinkhornStep K Kt) t (a, b) =
      iterOpt (sinkhornStep K Kt) t (a', b) := by
  cases t with
  | zero => omega
  | succ s =>
    simp only [iterOpt]
    rw [sinkhornStep_ignores_fst K Kt a a' b]

/-! ### Claim theorems -/

/-- C1: for point sets of equal dimension with m ≥ 1, n ≥ 1, ε > 0 and a
positive iteration count L, `sinkhorn_loss` returns exactly the scalar
`∑ i ∑ j K[i][j] * C[i][j] * v[j] * u[i]`, where `C[i][j] = ‖A[i]-B[j]‖²`,
`K[i][j] = exp(-C[i][j]/ε)`, and `u`, `v` arise from all-ones vectors by
exactly L rounds updating `u` first (with the `1e-12` floor) and then `v`
from the new `u`. -/
theorem sinkhorn_loss_returns_double_contraction
    (X Y : List (List ℝ)) (ε : ℝ) (L d : Nat)
    (hm : 1 ≤ X.length) (hn : 1 ≤ Y.length) (hε : 0 < ε) (hL : 1 ≤ L)
    (hdX : ∀ r ∈ X, r.length = d) (hdY : ∀ r ∈ Y, r.length = d) :
    sinkhorn_loss X Y ε L =
      some (∑ i ∈ Finset.range X.length, ∑ j ∈ Finset.range Y.length,
        specK ε (specC (entry X) (entry Y) d) i j *
          specC (entry X) (entry Y) d i j *
          (specUV (specK ε (specC (entry X) (entry Y) d))
            X.length Y.length L).2 j *
          (specUV (specK ε (specC (entry X) (entry Y) d))
            X.length Y.length L).1 i) :=
  sinkhorn_loss_closed_form X Y ε L d hL hdX hdY

/-- Concrete instance of the C1 theorem at A = B = [[0]], ε = 1, L = 1. -/
theorem sinkhorn_loss_returns_double_contraction_witness :
    1 ≤ ([[(0:ℝ)]] : List (List ℝ)).length ∧ (0:ℝ) < 1 ∧ 1 ≤ 1 ∧
      (∀ r ∈ ([[(0:ℝ)]] : List (List ℝ)), r.length = 1) ∧
      sinkhorn_loss [[(0:ℝ)]] [[(0:ℝ)]] 1 1 =
        some (∑ i ∈ Finset.range ([[(0:ℝ)]] : List (List ℝ)).length,
          ∑ j ∈ Finset.range ([[(0:ℝ)]] : List (List ℝ)).length,
          specK 1 (specC (entry [[(0:ℝ)]]) (entry [[(0:ℝ)]]) 1) i j *
            specC (entry [[(0:ℝ)]]) (entry [[(0:ℝ)]]) 1 i j *
            (specUV (specK 1 (specC (entry [[(0:ℝ)]]) (entry [[(0:ℝ)]]) 1))
              ([[(0:ℝ)]] : List (List ℝ)).length
              ([[(0:ℝ)]] : List (List ℝ)).length 1).2 j *
            (specUV (specK 1 (specC (entry [[(0:ℝ)]]) (entry [[(0:ℝ)]]) 1))
              ([[(0:ℝ)]] : List (List ℝ)).length
              ([[(0:ℝ)]] : List (List ℝ)).length 1).1 i) :=
  ⟨by simp, by norm_num, le_refl 1, by simp,
    sinkhorn_loss_returns_double_contraction [[(0:ℝ)]] [[(0:ℝ)]] 1 1 1
      (by simp) (by simp) (by norm_num) (le_refl 1) (by simp) (by simp)⟩

/-- C2 counterexample: with m = 1, n = 2, the first scaling vector is
initialized to the all-ones vector of length n = 2, not length m = 1 as
the claim states. -/
theorem u_init_sized_by_second_set_counterexample :
    sinkhornUV [[(0:ℝ)]] [[(0:ℝ)], [(1:ℝ)]] 1 0 = some ([1, 1], [1, 1]) ∧
      ¬ (([1, 1] : List ℝ).length = ([[(0:ℝ)]] : List (List ℝ)).length) :=
  ⟨rfl, by simp⟩

/-- C2 amended: `transport_cost` initializes BOTH scaling vectors to
all-ones vectors of length n (the size of the second point set B); the
claimed length m for `u` is obtained only when m = n. -/
theorem scaling_vectors_initialized_all_ones_length_n
    (X Y : List (List ℝ)) (ε : ℝ) :
    sinkhornUV X Y ε 0 =
      some (List.replicate Y.length 1, List.replicate Y.length 1) :=
  sinkhornUV_zero X Y ε

/-- C3 counterexample: at m = 1 ≥ 1, n = 2 ≥ 1, ε = 1 > 0 and L = 0 the
routine does not return the un-iterated initial cost: the final matrix
product fails the framework's shape check (the scaling vectors both have
length n = 2 while the contracted vector has length m = 1). -/
theorem L_zero_rectangular_counterexample :
    sinkhorn_loss [[(0:ℝ)]] [[(0:ℝ)], [(1:ℝ)]] 1 0 = none := by
  simp [sinkhorn_loss, sinkhornUV, iterOpt, a_init, b_init, hadamard,
    kernelMatrix, costMatrix, sqdist, matVec, dotChecked, dot]

/-- C3 amended: for equal set sizes m = n (and well-formed inputs), the
L = 0 call returns the un-iterated initial cost `∑ i ∑ j K[i][j]*C[i][j]`
computed with the all-ones scaling vectors, and the routine performs no
guard for L = 0; for m ≠ n the L = 0 call instead fails the framework's
shape check in the final contraction. -/
theorem L_zero_returns_uniterated_cost (X Y : List (List ℝ)) (ε : ℝ)
    (d : Nat) (hm : 1 ≤ X.length) (hn : 1 ≤ Y.length) (hε : 0 < ε)
    (hmn : X.length = Y.length)
    (hdX : ∀ r ∈ X, r.length = d) (hdY : ∀ r ∈ Y, r.length = d) :
    sinkhorn_loss X Y ε 0 =
      some (∑ i ∈ Finset.range X.length, ∑ j ∈ Finset.range Y.length,
        specK ε (specC (entry X) (entry Y) d) i j *
          specC (entry X) (entry Y) d i j) :=
  sinkhorn_loss_zero_form X Y ε d hmn hdX hdY

/-- Concrete instance of the amended C3 theorem at A = B = [[0]], ε = 1. -/
theorem L_zero_returns_uniterated_cost_witness :
    1 ≤ ([[(0:ℝ)]] : List (List ℝ)).length ∧ (0:ℝ) < 1 ∧
      ([[(0:ℝ)]] : List (List ℝ)).length = ([[(0:ℝ)]] : List (List ℝ)).length ∧
      (∀ r ∈ ([[(0:ℝ)]] : List (List ℝ)), r.length = 1) ∧
      sinkhorn_loss [[(0:ℝ)]] [[(0:ℝ)]] 1 0 =
        some (∑ i ∈ Finset.range ([[(0:ℝ)]] : List (List ℝ)).length,
          ∑ j ∈ Finset.range ([[(0:ℝ)]] : List (List ℝ)).length,
          specK 1 (specC (entry [[(0:ℝ)]]) (entry [[(0:ℝ)]]) 1) i j *
            specC (entry [[(0:ℝ)]]) (entry [[(0:ℝ)]]) 1 i j) :=
  ⟨by simp, by norm_num, rfl, by simp,
    L_zero_returns_uniterated_cost [[(0:ℝ)]] [[(0:ℝ)]] 1 1
      (by simp) (by simp) (by norm_num) rfl (by simp) (by simp)⟩

/-- C4: for well-formed inputs, any scalar the routine returns is ≥ 0. -/
theorem sinkhorn_loss_nonneg (X Y : List (List ℝ)) (ε : ℝ) (L : Nat) (r : ℝ)
    (hm : 1 ≤ X.length) (hn : 1 ≤ Y.length) (hε : 0 < ε)
    (h : sinkhorn_loss X Y ε L = some r) : 0 ≤ r :=
  sinkhorn_loss_nonneg_aux X Y ε L r h

/-- Concrete instance of the C4 theorem at A = B = [[0]], ε = 1, L = 0,
where the returned scalar is 0. -/
theorem sinkhorn_loss_nonneg_witness :
    1 ≤ ([[(0:ℝ)]] : List (List ℝ)).length ∧ (0:ℝ) < 1 ∧
      sinkhorn_loss [[(0:ℝ)]] [[(0:ℝ)]] 1 0 = some 0 ∧ (0:ℝ) ≤ 0 :=
  ⟨by simp, by norm_num,
    by simp [sinkhorn_loss, sinkhornUV, iterOpt, a_init, b_init, hadamard,
      kernelMatrix, costMatrix, sqdist, matVec, dotChecked, dot],
    sinkhorn_loss_nonneg [[(0:ℝ)]] [[(0:ℝ)]] 1 0 0 (by simp) (by simp)
      (by norm_num)
      (by simp [sinkhorn_loss, sinkhornUV, iterOpt, a_init, b_init, hadamard,
        kernelMatrix, costMatrix, sqdist, matVec, dotChecked, dot])⟩

/-- C5: for ε > 0 every entry of the affinity kernel lies in (0, 1]:
strictly positive and at most 1. -/
theorem kernel_entries_in_unit_interval (X Y : List (List ℝ)) (ε : ℝ)
    (hε : 0 < ε) (i j : Nat) (hi : i < X.length) (hj : j < Y.length) :
    0 < entry (kernelMatrix ε (costMatrix X Y)) i j ∧
      entry (kernelMatrix ε (costMatrix X Y)) i j ≤ 1 := by
  rw [entry, kernel_cost_outer, getD_map_outer X Y i j hi hj]
  refine ⟨Real.exp_pos _, ?_⟩
  rw [Real.exp_le_one_iff]
  have h1 := sqdist_nonneg (X.getD i []) (Y.getD j [])
  have h2 : -sqdist (X.getD i []) (Y.getD j []) ≤ 0 := by linarith
  exact div_nonpos_of_nonpos_of_nonneg h2 hε.le

/-- Concrete instance of the C5 theorem at A = B = [[0]], ε = 1,
entry (0, 0). -/
theorem kernel_entries_in_unit_interval_witness :
    (0:ℝ) < 1 ∧ 0 < ([[(0:ℝ)]] : List (List ℝ)).length ∧
      (0 < entry (kernelMatrix 1 (costMatrix [[(0:ℝ)]] [[(0:ℝ)]])) 0 0 ∧
        entry (kernelMatrix 1 (costMatrix [[(0:ℝ)]] [[(0:ℝ)]])) 0 0 ≤ 1) :=
  ⟨by norm_num, by simp,
    kernel_entries_in_unit_interval [[(0:ℝ)]] [[(0:ℝ)]] 1 (by norm_num) 0 0
      (by simp) (by simp)⟩

/-- C6: the routine is deterministic — identical inputs (point sets,
temperature and round count) give identical output; the embedding of the
routine is a pure function of exactly these four arguments. -/
theorem sinkhorn_loss_deterministic (X1 X2 Y1 Y2 : List (List ℝ))
    (ε1 ε2 : ℝ) (L1 L2 : Nat) (hX : X1 = X2) (hY : Y1 = Y2)
    (hε : ε1 = ε2) (hL : L1 = L2) :
    sinkhorn_loss X1 Y1 ε1 L1 = sinkhorn_loss X2 Y2 ε2 L2 := by
  rw [hX, hY, hε, hL]

/-- Concrete instance of the C6 theorem at A = [[0]], B = [[1]], ε = 2,
L = 3. -/
theorem sinkhorn_loss_deterministic_witness :
    ([[(0:ℝ)]] : List (List ℝ)) = [[(0:ℝ)]] ∧
      ([[(1:ℝ)]] : List (List ℝ)) = [[(1:ℝ)]] ∧ (2:ℝ) = 2 ∧ 3 = 3 ∧
      sinkhorn_loss [[(0:ℝ)]] [[(1:ℝ)]] 2 3 =
        sinkhorn_loss [[(0:ℝ)]] [[(1:ℝ)]] 2 3 :=
  ⟨rfl, rfl, rfl, rfl,
    sinkhorn_loss_deterministic [[(0:ℝ)]] [[(0:ℝ)]] [[(1:ℝ)]] [[(1:ℝ)]]
      2 2 3 3 rfl rfl rfl rfl⟩

/-- C7: for every input the fixed-point loop executes exactly L rounds
and terminates: the instrumented loop counts exactly L successful rounds
and produces precisely the state the routine goes on to use, regardless
of whether the scaling vectors have stabilized (no convergence check or
early exit exists). -/
theorem loop_runs_exactly_L_rounds (X Y : List (List ℝ)) (ε : ℝ) (L : Nat) :
    ∃ ab, iterCount (sinkhornStep (kernelMatrix ε (costMatrix X Y))
        (transposeM Y.length (kernelMatrix ε (costMatrix X Y)))) L
        (a_init Y, b_init Y) = some (ab, L) ∧
      sinkhornUV X Y ε L = some ab := by
  obtain ⟨A, B, hiter, _, _, _⟩ :=
    iter_corr (kernelMatrix ε (costMatrix X Y)) X.length Y.length
      (kernel_length X Y ε) (kernel_row_length X Y ε) L 0
      (a_init Y) (b_init Y) (by simp [b_init])
      (by
        intro j hj
        rw [b_init, getD_replicate_one _ _ hj]
        rfl)
  exact ⟨(A, B), iterCount_eq _ L _ _ hiter, hiter⟩

/-- C8: with well-formed numeric inputs (nonempty sets, ε > 0) and the
contract's positive round count, the routine raises no error and returns
a scalar; in this real-number model every intermediate value is a real
number, so finiteness is inherent. -/
theorem sinkhorn_loss_no_exception (X Y : List (List ℝ)) (ε : ℝ) (L : Nat)
    (hm : 1 ≤ X.length) (hn : 1 ≤ Y.length) (hε : 0 < ε) (hL : 1 ≤ L) :
    ∃ r, sinkhorn_loss X Y ε L = some r :=
  sinkhorn_loss_total X Y ε L hL

/-- Concrete instance of the C8 theorem at A = [[0]], B = [[1]], ε = 1,
L = 1. -/
theorem sinkhorn_loss_no_exception_witness :
    1 ≤ ([[(0:ℝ)]] : List (List ℝ)).length ∧
      1 ≤ ([[(1:ℝ)]] : List (List ℝ)).length ∧ (0:ℝ) < 1 ∧ 1 ≤ 1 ∧
      ∃ r, sinkhorn_loss [[(0:ℝ)]] [[(1:ℝ)]] 1 1 = some r :=
  ⟨by simp, by simp, by norm_num, le_refl 1,
    sinkhorn_loss_no_exception [[(0:ℝ)]] [[(1:ℝ)]] 1 1 (by simp) (by simp)
      (by norm_num) (le_refl 1)⟩

/-- C9: for L ≥ 1 the result does not depend on the initial value of the
first scaling vector (it is overwritten before ever being read), and the
final scaling vectors have lengths m and n, so the computation is
well-defined even when m ≠ n. -/
theorem result_independent_of_u_init (X Y : List (List ℝ)) (ε : ℝ)
    (L : Nat) (a0 : List ℝ) (hL : 1 ≤ L) :
    sinkhorn_loss_with a0 X Y ε L = sinkhorn_loss X Y ε L ∧
      ∃ A B, sinkhornUV X Y ε L = some (A, B) ∧
        A.length = X.length ∧ B.length = Y.length := by
  have huv : sinkhornUV_with a0 X Y ε L = sinkhornUV X Y ε L :=
    iterOpt_init_fst_irrelevant _ _ L hL a0 (a_init Y) (b_init Y)
  constructor
  · simp only [sinkhorn_loss_with, sinkhorn_loss]
    rw [huv]
  · obtain ⟨A, B, h, hA, hB, _, _⟩ := sinkhornUV_corr X Y ε L hL
    exact ⟨A, B, h, hA, hB⟩

/-- Concrete instance of the C9 theorem at A = [[0]], B = [[0]], [[1]],
empty initial u, ε = 1, L = 1 (a rectangular m ≠ n case). -/
theorem result_independent_of_u_init_witness :
    1 ≤ 1 ∧
      (sinkhorn_loss_with [] [[(0:ℝ)]] [[(0:ℝ)], [(1:ℝ)]] 1 1 =
          sinkhorn_loss [[(0:ℝ)]] [[(0:ℝ)], [(1:ℝ)]] 1 1 ∧
        ∃ A B, sinkhornUV [[(0:ℝ)]] [[(0:ℝ)], [(1:ℝ)]] 1 1 = some (A, B) ∧
          A.length = ([[(0:ℝ)]] : List (List ℝ)).length ∧
          B.length = ([[(0:ℝ)], [(1:ℝ)]] : List (List ℝ)).length) :=
  ⟨le_refl 1,
    result_independent_of_u_init [[(0:ℝ)]] [[(0:ℝ)], [(1:ℝ)]] 1 1 []
      (le_refl 1)⟩

/-- C10: the entry point's default arguments are ε = 0.5 and L = 10, and
the composite objective `2·S(X,G) − S(X,X) − S(G,G)` is computed entirely
through calls with those defaults. -/
theorem default_arguments_epsilon_half_L_ten (X G : List (List ℝ)) :
    sinkhorn_loss_default X G = sinkhorn_loss X G 0.5 10 ∧
      loss X G = (sinkhorn_loss X G 0.5 10).bind (fun s1 =>
        (sinkhorn_loss X X 0.5 10).bind (fun s2 =>
          (sinkhorn_loss G G 0.5 10).bind (fun s3 =>
            some (2 * s1 - s2 - s3)))) :=
  ⟨rfl, rfl⟩

end PaperSummaries
